import Mathlib

/-!
Verification of the compose-systemd dependency manager

Shallow embedding of the dependency-management core of the repository
(`utils/helper_base.py` and `utils/helper_deps.py`) and proofs of the
specification's testable properties.

Python strings are embedded as `List Char` (`PyStr`); the per-service
override file is embedded as an optional file content (`Option PyStr`,
`none` meaning the file does not exist); the whole filesystem of override
files, as seen by the cycle detector, is a map from override-file key
(the normalized unit name of the service) to optional content.
-/

/-- Python `str` embedded as a list of characters. -/
abbrev PyStr := List Char

/-- Whitespace test used by Python's `str.strip()`: the characters with
the Unicode whitespace property (code points 0x09 through 0x0d, 0x1c
through 0x1f, space, 0x85, 0xa0, 0x1680, 0x2000 through 0x200a, 0x2028,
0x2029, 0x202f, 0x205f and 0x3000). -/
def pyIsSpace (c : Char) : Bool :=
  c.isWhitespace || c.toNat = 0x0b || c.toNat = 0x0c ||
  (0x1c ≤ c.toNat && c.toNat ≤ 0x1f) || c.toNat = 0x85 || c.toNat = 0xa0 ||
  c.toNat = 0x1680 || (0x2000 ≤ c.toNat && c.toNat ≤ 0x200a) ||
  c.toNat = 0x2028 || c.toNat = 0x2029 || c.toNat = 0x202f ||
  c.toNat = 0x205f || c.toNat = 0x3000

/-- Python `s.strip()`: drop leading and trailing whitespace. -/
def pyStrip (s : PyStr) : PyStr :=
  ((s.dropWhile pyIsSpace).reverse.dropWhile pyIsSpace).reverse

/-- Python `s.strip(chars)`: drop leading and trailing characters from `cs`. -/
def pyStripSet (s : PyStr) (cs : List Char) : PyStr :=
  ((s.dropWhile (· ∈ cs)).reverse.dropWhile (· ∈ cs)).reverse

/-- Python `str.capitalize()` (ASCII portion): first character uppercased,
the rest lowercased. -/
def pyCapitalize (s : PyStr) : PyStr :=
  match s with
  | [] => []
  | c :: cs => c.toUpper :: cs.map Char.toLower

/-- The unit-name qualifying template pieces from
`get_compose_service_name`: `docker-compose@` and `.service`. -/
def unitPre : PyStr := "docker-compose@".toList

/-- The unit-file name ending `.service`. -/
def unitSuf : PyStr := ".service".toList

/-- `helper_base.get_compose_service_name`: convert a project name to the
`docker-compose@<name>.service` systemd unit name.  Faithful translation of
the Python source: an already fully qualified name is returned unchanged; a
name carrying only the `.service` ending is stripped (`project[:-8]`) and
re-qualified; a bare name gets both template pieces appended.
`gcsnTail` is the part of the function after the optional ending strip. -/
def gcsnTail (project : PyStr) : PyStr :=
  if ¬ unitPre.isPrefixOf project then unitPre ++ project ++ unitSuf
  else if ¬ unitSuf.isSuffixOf project then project ++ unitSuf
  else project

/-- See `gcsnTail`; this is the full `get_compose_service_name`. -/
def get_compose_service_name (project : PyStr) : PyStr :=
  if unitSuf.isSuffixOf project then
    if unitPre.isPrefixOf project then project
    else gcsnTail (project.take (project.length - 8))
  else gcsnTail project

/-! ## The Descriptor (override fragment) and its parser and writer
(`helper_deps.parse_override_file`, `helper_deps.write_override_file`) -/

/-- The in-memory Descriptor: the dict
`{"Requires": [...], "Wants": [...], "After": [...]}` of
`parse_override_file`. -/
structure Deps where
  requires : List PyStr
  wants : List PyStr
  after : List PyStr
deriving DecidableEq

/-- The empty Descriptor (`parse_override_file` on a missing file). -/
def emptyDeps : Deps := ⟨[], [], []⟩

/-- The directive keys recognized by the parser. -/
def keyRequires : PyStr := "Requires".toList

/-- See `keyRequires`. -/
def keyWants : PyStr := "Wants".toList

/-- See `keyRequires`. -/
def keyAfter : PyStr := "After".toList

/-- `deps.get(k, [])` on the three-key dict. -/
def getDir (d : Deps) (k : PyStr) : List PyStr :=
  if k = keyRequires then d.requires
  else if k = keyWants then d.wants
  else if k = keyAfter then d.after
  else []

/-- `deps[k] = v` on the three-key dict. -/
def setDir (d : Deps) (k : PyStr) (v : List PyStr) : Deps :=
  if k = keyRequires then { d with requires := v }
  else if k = keyWants then { d with wants := v }
  else if k = keyAfter then { d with after := v }
  else d

/-- `if key in deps and value: deps[key].append(value)` from the parser. -/
def addIfKey (d : Deps) (key value : PyStr) : Deps :=
  if key = keyRequires then { d with requires := d.requires ++ [value] }
  else if key = keyWants then { d with wants := d.wants ++ [value] }
  else if key = keyAfter then { d with after := d.after ++ [value] }
  else d

/-- Prepend a character to the first of a list of lines. -/
def consHead (c : Char) : List PyStr → List PyStr
  | [] => [[]]
  | l :: ls => (c :: l) :: ls

/-- Python's universal-newline translation performed by text-mode
reading: `"\r\n"` and a lone `'\r'` both become `'\n'`.  A `'\r'`
directly followed by `'\n'` is simply dropped (the following `'\n'`
supplies the line break); any other `'\r'` is rewritten to `'\n'`. -/
def normNewlines : PyStr → PyStr
  | [] => []
  | c :: cs =>
    if c = '\r' ∧ cs.head? = some '\n' then normNewlines cs
    else if c = '\r' then '\n' :: normNewlines cs
    else c :: normNewlines cs

/-- Split a character stream into lines at `'\n'`. -/
def splitLF : PyStr → List PyStr
  | [] => [[]]
  | c :: cs =>
    if c = '\n' then [] :: splitLF cs else consHead c (splitLF cs)

/-- Split a file content into lines as Python's text-mode file iteration
does: universal-newline translation first, then breaking at `'\n'`
(the line terminators themselves are consumed by the later `strip`). -/
def splitLines (s : PyStr) : List PyStr := splitLF (normNewlines s)

/-- Python `line.split("=", 1)` guarded by `"=" in line`: `none` when the
line has no `'='`, otherwise the parts before and after the first `'='`. -/
def splitFirstEq : PyStr → Option (PyStr × PyStr)
  | [] => none
  | c :: cs =>
    if c = '=' then some ([], cs)
    else
      match splitFirstEq cs with
      | none => none
      | some (a, b) => some (c :: a, b)

/-- The name of the only section whose directives are interpreted. -/
def unitSection : PyStr := "Unit".toList

/-- One iteration of the line loop of `parse_override_file`; the state is
the current section (`none` before any section header) and the
accumulated dict. -/
def parseLine (st : Option PyStr × Deps) (rawLine : PyStr) : Option PyStr × Deps :=
  let line := pyStrip rawLine
  if line = [] ∨ ['#'].isPrefixOf line then st
  else if ['['].isPrefixOf line ∧ [']'].isSuffixOf line then
    (some (pyStripSet line ['[', ']']), st.2)
  else if st.1 ≠ some unitSection then st
  else
    match splitFirstEq line with
    | none => st
    | some (k, v) =>
      let key := pyStrip k
      let value := pyStrip v
      if value ≠ [] then (st.1, addIfKey st.2 key value) else st

/-- `parse_override_file` on an existing file's content. -/
def parseContent (content : PyStr) : Deps :=
  ((splitLines content).foldl parseLine (none, emptyDeps)).2

/-- `parse_override_file`, with the file embedded as `Option PyStr`
(`none` = the file does not exist, which yields the empty dict). -/
def parse_override_file (file : Option PyStr) : Deps :=
  match file with
  | none => emptyDeps
  | some content => parseContent content

/-- Python `"\n".join(lines)`. -/
def joinLines : List PyStr → PyStr
  | [] => []
  | [l] => l
  | l :: ls => l ++ '\n' :: joinLines ls

/-- `write_override_file`: `[Unit]` header, then all `Requires=` lines,
then all `Wants=` lines, then all `After=` lines, joined by newlines with
a trailing newline. -/
def writeContent (d : Deps) : PyStr :=
  joinLines ([("[Unit]").toList] ++
    d.requires.map (fun s => keyRequires ++ '=' :: s) ++
    d.wants.map (fun s => keyWants ++ '=' :: s) ++
    d.after.map (fun s => keyAfter ++ '=' :: s)) ++ ['\n']

/-! ## The cycle detector (`helper_deps.detect_cycles`) -/

/-- Python `s.replace(pat, rep)` (all non-overlapping occurrences, left to
right), driven by a step budget; each step consumes at least one character
of `s`, so a budget of `s.length` is exact (see `pyReplace`). -/
def pyReplaceFuel (pat rep : PyStr) : Nat → PyStr → PyStr
  | 0, s => s
  | _ + 1, [] => []
  | n + 1, c :: cs =>
    if pat ≠ [] ∧ pat.isPrefixOf (c :: cs) then
      rep ++ pyReplaceFuel pat rep n ((c :: cs).drop pat.length)
    else c :: pyReplaceFuel pat rep n cs

/-- Python `s.replace(pat, rep)` for a non-empty pattern. -/
def pyReplace (pat rep s : PyStr) : PyStr := pyReplaceFuel pat rep s.length s

/-- The name recovery in `detect_cycles`:
`dep_unit.replace("docker-compose@", "").replace(".service", "").strip()`. -/
def stripUnit (u : PyStr) : PyStr :=
  pyStrip (pyReplace unitSuf [] (pyReplace unitPre [] u))

/-- The filesystem of override files as the detector sees it: content of
`/etc/systemd/system/<unit>.d/dependencies.conf` keyed by the normalized
unit name `<unit>` (`none` = no such file). -/
abbrev FS := PyStr → Option PyStr

/-- Reading and parsing the override file of a service
(`parse_override_file(get_override_file(service))`). -/
def readDeps (fs : FS) (service : PyStr) : Deps :=
  parse_override_file (fs (get_compose_service_name service))

/-- Result of a detector call: `none` = step budget exhausted (never
happens with enough budget), `some none` = Python `None` (no cycle),
`some (some c)` = the cycle `c`; paired with the updated `visited` set
(the Python `visited` set is mutated in place and threaded through the
recursion; `path` is copied at each call). -/
abbrev DetectRes := Option (Option (List PyStr)) × List PyStr

/-- The `for dep_list in [Requires, Wants]: for dep_unit in dep_list:`
loop of `detect_cycles`: try each dependency in turn, threading `visited`,
returning the first truthy cycle (Python `if cycle:` — an empty list would
be falsy, hence the separate `some (some [])` arm). -/
def detectLoop (rec : PyStr → List PyStr → List PyStr → DetectRes) :
    List PyStr → List PyStr → List PyStr → DetectRes
  | [], _, visited => (some none, visited)
  | u :: us, path, visited =>
    match rec (stripUnit u) path visited with
    | (some none, v) => detectLoop rec us path v
    | (some (some []), v) => detectLoop rec us path v
    | r => r

/-- `detect_cycles(service, visited, path)`, with an explicit recursion
budget (the Python recursion terminates because `visited` only grows;
the budget is a shallow-embedding artifact and any budget larger than the
number of distinct reachable services is exact). -/
def detectCyclesAux (fs : FS) : Nat → PyStr → List PyStr → List PyStr → DetectRes
  | 0, _, _, visited => (none, visited)
  | fuel + 1, service, path, visited =>
    if service ∈ path then
      (some (some (path.drop (path.indexOf service) ++ [service])), visited)
    else if service ∈ visited then (some none, visited)
    else
      detectLoop (detectCyclesAux fs fuel)
        ((readDeps fs service).requires ++ (readDeps fs service).wants)
        (path ++ [service]) (visited ++ [service])

/-- `detect_cycles(service)` with the default empty `visited` and `path`. -/
def detect_cycles (fs : FS) (fuel : Nat) (service : PyStr) : DetectRes :=
  detectCyclesAux fs fuel service [] []

/-! ## The mutating operations (`helper_deps.add_dependency`,
`helper_deps.remove_dependency`)

Both operations act on the override file of `service`; the embedding takes
that single file (`Option PyStr`, `none` = absent) as the state and
returns the outcome together with the new state.  `sys.exit(1)` paths are
the `err` outcome, the warn-and-return paths are `warnNoop`, and the
mutate-write-reload path is `ok` (the `systemctl daemon-reload` side
effect is external and not part of the file state). -/

/-- Outcome of a mutating operation. -/
inductive OpOutcome where
  | err
  | warnNoop
  | ok
deriving DecidableEq

/-- The valid `dep_type` arguments, `["requires", "wants"]`. -/
def validTypes : List PyStr := ["requires".toList, "wants".toList]

/-- The Descriptor mutation of a successful `add_dependency`: append
`dep_unit` to the requested directive list, and to `After` if absent. -/
def addedDeps (d : Deps) (dirKey dep_unit : PyStr) : Deps :=
  let d1 := setDir d dirKey (getDir d dirKey ++ [dep_unit])
  if dep_unit ∈ d1.after then d1 else { d1 with after := d1.after ++ [dep_unit] }

/-- `add_dependency(service, dependency, dep_type)` acting on the override
file of `service`.  `templateOk` embeds `service_template_exists()`. -/
def add_dependency (templateOk : Bool) (file : Option PyStr)
    (service dependency dep_type : PyStr) : OpOutcome × Option PyStr :=
  if pyStrip service = [] ∨ pyStrip dependency = [] then (.err, file)
  else if pyStrip service = pyStrip dependency then (.err, file)
  else if dep_type ∉ validTypes then (.err, file)
  else if ¬ templateOk then (.err, file)
  else
    let dep_unit := get_compose_service_name (pyStrip dependency)
    let deps := parse_override_file file
    let dep_directive := pyCapitalize dep_type
    if dep_unit ∈ getDir deps dep_directive then (.warnNoop, file)
    else (.ok, some (writeContent (addedDeps deps dep_directive dep_unit)))

/-- The Descriptor mutation of `remove_dependency`: `list.remove` (first
occurrence) of `dep_unit` on each of the three lists (a list not
containing it is left unchanged, matching the guarded loop). -/
def removedDeps (d : Deps) (dep_unit : PyStr) : Deps :=
  ⟨d.requires.erase dep_unit, d.wants.erase dep_unit, d.after.erase dep_unit⟩

/-- `remove_dependency(service, dependency)` acting on the override file
of `service`. -/
def remove_dependency (file : Option PyStr) (service dependency : PyStr) :
    OpOutcome × Option PyStr :=
  let dep_unit := get_compose_service_name (pyStrip dependency)
  match file with
  | none => (.err, none)
  | some content =>
    let deps := parseContent content
    if dep_unit ∉ deps.requires ∧ dep_unit ∉ deps.wants ∧ dep_unit ∉ deps.after then
      (.warnNoop, some content)
    else if (removedDeps deps dep_unit).requires ≠ [] ∨
        (removedDeps deps dep_unit).wants ≠ [] then
      (.ok, some (writeContent (removedDeps deps dep_unit)))
    else (.ok, none)

/-! ## Well-behaved entries and facts about `pyStrip` -/

/-- A directive value that survives the write/parse round trip untouched:
non-empty, free of the line-break characters `'\n'` and `'\r'` (both split
a written line on re-read, via universal newlines), and unchanged by
whitespace stripping. -/
def GoodEntry (e : PyStr) : Prop :=
  e ≠ [] ∧ '\n' ∉ e ∧ '\r' ∉ e ∧ pyStrip e = e

/-! ## Goodness of parsed entries -/

/-- All directive values of a Descriptor, across the three lists. -/
def entriesOf (d : Deps) : List PyStr := d.requires ++ d.wants ++ d.after

/-! ## Cycle-detector correctness on acyclic graphs -/

/-- The edge relation the detector traverses: from a service to the
recovered name of each of its `Requires` and `Wants` targets. -/
def depStep (fs : FS) (a b : PyStr) : Prop :=
  b ∈ ((readDeps fs a).requires ++ (readDeps fs a).wants).map stripUnit

/-! ## Reachable Descriptor states and their invariant -/

/-- Proviso for the amended C3/C5/C6: the dependency argument's normalized
unit name contains no line break.  (A line break smuggled into a name makes
the written file re-split into several lines on the next parse; `'\r'` is
included because Python's text mode also breaks lines at carriage
returns.) -/
def GoodDep (dependency : PyStr) : Prop :=
  '\n' ∉ get_compose_service_name (pyStrip dependency) ∧
  '\r' ∉ get_compose_service_name (pyStrip dependency)

instance (dependency : PyStr) : Decidable (GoodDep dependency) := by
  unfold GoodDep
  infer_instance

/-- The Descriptor invariant of claim C3: duplicate-free directive lists,
and every causal (`Requires`/`Wants`) target also listed under `After`. -/
def DepsInv (d : Deps) : Prop :=
  d.requires.Nodup ∧ d.wants.Nodup ∧ d.after.Nodup ∧
  (∀ x ∈ d.requires, x ∈ d.after) ∧ (∀ x ∈ d.wants, x ∈ d.after)

/-- File states reachable from the absent Descriptor by `add_dependency`
(with a well-behaved dependency name) and `remove_dependency`, with
arbitrary further arguments; failed operations leave the state unchanged
and are included. -/
inductive ReachA : Option PyStr → Prop where
  | init : ReachA none
  | addStep (te : Bool) (file : Option PyStr) (s dep k : PyStr)
      (hdep : GoodDep dep) (h : ReachA file) :
      ReachA (add_dependency te file s dep k).2
  | removeStep (file : Option PyStr) (s dep : PyStr) (h : ReachA file) :
      ReachA (remove_dependency file s dep).2

/-! ## Theorems -/

/-! ## Basic facts about the embedded string primitives -/

theorem isPrefixOf_iff_exists (l m : PyStr) :
    l.isPrefixOf m = true ↔ ∃ t, m = l ++ t := by
  induction l generalizing m with
  | nil => simp [List.isPrefixOf]
  | cons c cs ih =>
    cases m with
    | nil => simp [List.isPrefixOf]
    | cons d ds =>
      simp only [List.isPrefixOf, Bool.and_eq_true, beq_iff_eq, ih]
      constructor
      · rintro ⟨rfl, t, rfl⟩
        exact ⟨t, rfl⟩
      · rintro ⟨t, h⟩
        injection h with h1 h2
        exact ⟨h1.symm, t, h2⟩

theorem isSuffixOf_iff_exists (l m : PyStr) :
    l.isSuffixOf m = true ↔ ∃ t, m = t ++ l := by
  simp only [List.isSuffixOf, isPrefixOf_iff_exists]
  constructor
  · rintro ⟨t, h⟩
    refine ⟨t.reverse, ?_⟩
    have := congrArg List.reverse h
    simpa using this
  · rintro ⟨t, rfl⟩
    exact ⟨t.reverse, by simp⟩

/-- Every result of `gcsnTail` carries the qualifying template pieces. -/
theorem gcsnTail_shape (p : PyStr) :
    (∃ t, gcsnTail p = unitPre ++ t) ∧ (∃ t, gcsnTail p = t ++ unitSuf) := by
  unfold gcsnTail
  by_cases h1 : unitPre.isPrefixOf p
  · by_cases h2 : unitSuf.isSuffixOf p
    · rw [if_neg (by simp [h1]), if_neg (by simp [h2])]
      obtain ⟨t1, ht1⟩ := (isPrefixOf_iff_exists _ _).mp h1
      obtain ⟨t2, ht2⟩ := (isSuffixOf_iff_exists _ _).mp h2
      exact ⟨⟨t1, ht1⟩, ⟨t2, ht2⟩⟩
    · rw [if_neg (by simp [h1]), if_pos (by simp [h2])]
      obtain ⟨t1, ht1⟩ := (isPrefixOf_iff_exists _ _).mp h1
      subst ht1
      exact ⟨⟨t1 ++ unitSuf, by simp⟩, ⟨unitPre ++ t1, by simp⟩⟩
  · rw [if_pos (by simp [h1])]
    exact ⟨⟨p ++ unitSuf, by simp⟩, ⟨unitPre ++ p, by simp⟩⟩

/-- Every result of `get_compose_service_name` starts with `docker-compose@`
and ends with `.service`. -/
theorem gcsn_shape (p : PyStr) :
    (∃ t, get_compose_service_name p = unitPre ++ t) ∧
    (∃ t, get_compose_service_name p = t ++ unitSuf) := by
  unfold get_compose_service_name
  by_cases h2 : unitSuf.isSuffixOf p
  · by_cases h1 : unitPre.isPrefixOf p
    · simp only [h1, h2, if_true]
      obtain ⟨t1, ht1⟩ := (isPrefixOf_iff_exists _ _).mp h1
      obtain ⟨t2, ht2⟩ := (isSuffixOf_iff_exists _ _).mp h2
      exact ⟨⟨t1, ht1⟩, ⟨t2, ht2⟩⟩
    · simp only [h1, h2, if_true, if_false]
      exact gcsnTail_shape _
  · simp only [h2, if_false]
    exact gcsnTail_shape _

/-- Claim C9 (see also `gcsn_idem` below): a name that carries both template
pieces is returned unchanged. -/
theorem gcsn_of_qualified (p : PyStr)
    (h1 : ∃ t, p = unitPre ++ t) (h2 : ∃ t, p = t ++ unitSuf) :
    get_compose_service_name p = p := by
  unfold get_compose_service_name
  rw [if_pos ((isSuffixOf_iff_exists _ _).mpr h2)]
  rw [if_pos ((isPrefixOf_iff_exists _ _).mpr h1)]

/-- Name normalization is idempotent. -/
theorem gcsn_idem (x : PyStr) :
    get_compose_service_name (get_compose_service_name x) =
      get_compose_service_name x := by
  obtain ⟨hp, hs⟩ := gcsn_shape x
  exact gcsn_of_qualified _ hp hs

theorem dropWhile_head?_false {p : Char → Bool} {l : PyStr} {c : Char}
    (h : (List.dropWhile p l).head? = some c) : p c = false := by
  induction l with
  | nil => simp at h
  | cons a t ih =>
    rw [List.dropWhile_cons] at h
    by_cases hp : p a
    · exact ih (by simpa [hp] using h)
    · rw [if_neg (by simpa using hp)] at h
      simp only [List.head?_cons, Option.some.injEq] at h
      subst h
      simpa using hp

theorem dropWhile_eq_self {p : Char → Bool} {l : PyStr}
    (h : ∀ c, l.head? = some c → p c = false) : List.dropWhile p l = l := by
  cases l with
  | nil => rfl
  | cons a t =>
    rw [List.dropWhile_cons, if_neg]
    simp [h a rfl]

theorem getLast?_of_suffix {l m : PyStr} (h : l <:+ m) (hne : l ≠ []) :
    m.getLast? = l.getLast? := by
  obtain ⟨t, rfl⟩ := h
  exact List.getLast?_append_of_ne_nil _ hne

theorem pyStrip_head?_not_space {l : PyStr} {c : Char}
    (h : (pyStrip l).head? = some c) : pyIsSpace c = false := by
  unfold pyStrip at h
  rw [List.head?_reverse] at h
  set X := List.dropWhile pyIsSpace (List.dropWhile pyIsSpace l).reverse with hX
  have hsuf : X <:+ (List.dropWhile pyIsSpace l).reverse := List.dropWhile_suffix _
  have hXne : X ≠ [] := by
    intro hnil
    rw [hnil] at h
    simp at h
  rw [getLast?_of_suffix hsuf hXne |>.symm, List.getLast?_reverse] at h
  exact dropWhile_head?_false h

theorem pyStrip_getLast?_not_space {l : PyStr} {c : Char}
    (h : (pyStrip l).getLast? = some c) : pyIsSpace c = false := by
  unfold pyStrip at h
  rw [List.getLast?_reverse] at h
  exact dropWhile_head?_false h

theorem pyStrip_eq_self {l : PyStr}
    (h1 : ∀ c, l.head? = some c → pyIsSpace c = false)
    (h2 : ∀ c, l.getLast? = some c → pyIsSpace c = false) : pyStrip l = l := by
  unfold pyStrip
  rw [dropWhile_eq_self h1]
  rw [dropWhile_eq_self (by simpa [List.head?_reverse] using h2)]
  exact List.reverse_reverse l

/-- Python `strip` is idempotent. -/
theorem pyStrip_idem (l : PyStr) : pyStrip (pyStrip l) = pyStrip l :=
  pyStrip_eq_self (fun _ h => pyStrip_head?_not_space h)
    (fun _ h => pyStrip_getLast?_not_space h)

theorem mem_pyStrip {x : Char} {l : PyStr} (h : x ∈ pyStrip l) : x ∈ l := by
  unfold pyStrip at h
  rw [List.mem_reverse] at h
  have h2 := (@List.dropWhile_sublist Char
    ((List.dropWhile pyIsSpace l).reverse) pyIsSpace).mem h
  rw [List.mem_reverse] at h2
  exact (List.dropWhile_sublist pyIsSpace).mem h2

/-- A normalized unit name is non-empty and strip-invariant; if it is
also free of line breaks it is a `GoodEntry`. -/
theorem gcsn_goodEntry (p : PyStr)
    (h : '\n' ∉ get_compose_service_name p)
    (h2 : '\r' ∉ get_compose_service_name p) :
    GoodEntry (get_compose_service_name p) := by
  obtain ⟨⟨t1, hpre⟩, ⟨t2, hsuf⟩⟩ := gcsn_shape p
  have hhead : (get_compose_service_name p).head? = some 'd' := by
    rw [hpre]; rfl
  have hlast : (get_compose_service_name p).getLast? = some 'e' := by
    rw [hsuf]
    exact List.getLast?_append_of_ne_nil _ (by simp [unitSuf])
  refine ⟨?_, h, h2, ?_⟩
  · intro hnil
    rw [hnil] at hhead
    simp at hhead
  · refine pyStrip_eq_self ?_ ?_
    · intro c hc
      rw [hhead] at hc
      cases hc
      rfl
    · intro c hc
      rw [hlast] at hc
      cases hc
      rfl

/-! ## Facts about line splitting and the first-`=` split -/

theorem consHead_ne_nil (c : Char) (ls : List PyStr) : consHead c ls ≠ [] := by
  cases ls <;> simp [consHead]

theorem splitLF_ne_nil (c : PyStr) : splitLF c ≠ [] := by
  cases c with
  | nil => simp [splitLF]
  | cons a t =>
    rw [splitLF]
    by_cases ha : a = '\n'
    · simp [ha]
    · simp only [ha, if_false]
      exact consHead_ne_nil a _

theorem splitLines_ne_nil (c : PyStr) : splitLines c ≠ [] :=
  splitLF_ne_nil (normNewlines c)

theorem mem_splitLF_no_newline : ∀ {c l : PyStr}, l ∈ splitLF c → '\n' ∉ l := by
  intro c
  induction c with
  | nil =>
    intro l hl
    simp only [splitLF, List.mem_singleton] at hl
    simp [hl]
  | cons a t ih =>
    intro l hl
    rw [splitLF] at hl
    by_cases ha : a = '\n'
    · rw [if_pos ha] at hl
      rcases List.mem_cons.mp hl with rfl | hl2
      · simp
      · exact ih hl2
    · rw [if_neg ha] at hl
      rcases hsp : splitLF t with _ | ⟨m, ms⟩
      · exact absurd hsp (splitLF_ne_nil t)
      · rw [hsp, consHead] at hl
        rcases List.mem_cons.mp hl with rfl | hl2
        · intro hmem
          rcases List.mem_cons.mp hmem with h1 | h2
          · exact ha h1.symm
          · exact ih (hsp ▸ List.mem_cons_self m ms) h2
        · exact ih (hsp ▸ List.mem_cons_of_mem m hl2)

theorem mem_splitLF_mem : ∀ {c l : PyStr}, l ∈ splitLF c →
    ∀ {x : Char}, x ∈ l → x ∈ c := by
  intro c
  induction c with
  | nil =>
    intro l hl x hx
    simp only [splitLF, List.mem_singleton] at hl
    subst hl
    cases hx
  | cons a t ih =>
    intro l hl x hx
    rw [splitLF] at hl
    by_cases ha : a = '\n'
    · rw [if_pos ha] at hl
      rcases List.mem_cons.mp hl with rfl | hl2
      · cases hx
      · exact List.mem_cons_of_mem a (ih hl2 hx)
    · rw [if_neg ha] at hl
      rcases hsp : splitLF t with _ | ⟨m, ms⟩
      · exact absurd hsp (splitLF_ne_nil t)
      · rw [hsp, consHead] at hl
        rcases List.mem_cons.mp hl with rfl | hl2
        · rcases List.mem_cons.mp hx with rfl | hx2
          · exact List.mem_cons_self x t
          · exact List.mem_cons_of_mem a
              (ih (hsp ▸ List.mem_cons_self m ms) hx2)
        · exact List.mem_cons_of_mem a
            (ih (hsp ▸ List.mem_cons_of_mem m hl2) hx)

theorem not_cr_normNewlines : ∀ (s : PyStr), '\r' ∉ normNewlines s := by
  intro s
  induction s with
  | nil => simp [normNewlines]
  | cons c cs ih =>
    rw [normNewlines]
    split_ifs with h1 h2
    · exact ih
    · intro hmem
      rcases List.mem_cons.mp hmem with h | h
      · exact absurd h.symm (by decide)
      · exact ih h
    · intro hmem
      rcases List.mem_cons.mp hmem with h | h
      · exact h2 h.symm
      · exact ih h

theorem normNewlines_of_not_cr : ∀ {s : PyStr}, '\r' ∉ s → normNewlines s = s := by
  intro s
  induction s with
  | nil => intro _; rfl
  | cons c cs ih =>
    intro h
    have hc : c ≠ '\r' := fun hc => h (hc ▸ List.mem_cons_self c cs)
    have hcs : '\r' ∉ cs := fun hm => h (List.mem_cons_of_mem c hm)
    rw [normNewlines, if_neg (fun hand => hc hand.1), if_neg hc, ih hcs]

theorem mem_splitLines_no_break {c l : PyStr} (hl : l ∈ splitLines c) :
    '\n' ∉ l ∧ '\r' ∉ l := by
  refine ⟨mem_splitLF_no_newline hl, fun hmem => ?_⟩
  exact not_cr_normNewlines c (mem_splitLF_mem hl hmem)

theorem splitLF_append_newline {a r : PyStr} (h : '\n' ∉ a) :
    splitLF (a ++ '\n' :: r) = a :: splitLF r := by
  induction a with
  | nil =>
    rw [List.nil_append, splitLF, if_pos rfl]
  | cons c cs ih =>
    have hc : c ≠ '\n' := fun hc => h (hc ▸ List.mem_cons_self c cs)
    have hcs : '\n' ∉ cs := fun hm => h (List.mem_cons_of_mem c hm)
    rw [List.cons_append, splitLF, if_neg hc, ih hcs, consHead]

theorem splitFirstEq_append {a b : PyStr} (h : '=' ∉ a) :
    splitFirstEq (a ++ '=' :: b) = some (a, b) := by
  induction a with
  | nil => simp [splitFirstEq]
  | cons c cs ih =>
    have hc : c ≠ '=' := fun hc => h (hc ▸ List.mem_cons_self c cs)
    have hcs : '=' ∉ cs := fun hm => h (List.mem_cons_of_mem c hm)
    rw [List.cons_append, splitFirstEq, if_neg hc, ih hcs]

theorem splitFirstEq_eq_some : ∀ {l a b : PyStr},
    splitFirstEq l = some (a, b) → l = a ++ '=' :: b := by
  intro l
  induction l with
  | nil => intro a b h; simp [splitFirstEq] at h
  | cons c cs ih =>
    intro a b h
    rw [splitFirstEq] at h
    by_cases hc : c = '='
    · rw [if_pos hc] at h
      cases h
      simp [hc]
    · rw [if_neg hc] at h
      match hm : splitFirstEq cs with
      | none => rw [hm] at h; cases h
      | some (a', b') =>
        rw [hm] at h
        cases h
        rw [List.cons_append]
        exact congrArg (c :: ·) (ih hm)

theorem addIfKey_entries {d : Deps} {key value x : PyStr}
    (h : x ∈ entriesOf (addIfKey d key value)) : x ∈ entriesOf d ∨ x = value := by
  unfold addIfKey at h
  split_ifs at h <;>
    simp only [entriesOf, List.mem_append, List.mem_singleton] at h ⊢ <;> tauto

theorem parseLine_entries_good {st : Option PyStr × Deps} {raw x : PyStr}
    (hraw : '\n' ∉ raw) (hrawr : '\r' ∉ raw)
    (hst : ∀ y ∈ entriesOf st.2, GoodEntry y)
    (hx : x ∈ entriesOf (parseLine st raw).2) : GoodEntry x := by
  unfold parseLine at hx
  simp only at hx
  split_ifs at hx with h1 h2 h3
  · exact hst x hx
  · exact hst x hx
  · exact hst x hx
  · rcases hsp : splitFirstEq (pyStrip raw) with _ | ⟨k, v⟩
    · rw [hsp] at hx
      exact hst x hx
    · rw [hsp] at hx
      simp only at hx
      split_ifs at hx with hv
      · rcases addIfKey_entries hx with hold | rfl
        · exact hst x hold
        · refine ⟨hv, ?_, ?_, pyStrip_idem v⟩
          · intro hmem
            have hv2 : '\n' ∈ v := mem_pyStrip hmem
            have hl2 : '\n' ∈ pyStrip raw := by
              rw [splitFirstEq_eq_some hsp]
              simp [hv2]
            exact hraw (mem_pyStrip hl2)
          · intro hmem
            have hv2 : '\r' ∈ v := mem_pyStrip hmem
            have hl2 : '\r' ∈ pyStrip raw := by
              rw [splitFirstEq_eq_some hsp]
              simp [hv2]
            exact hrawr (mem_pyStrip hl2)
      · exact hst x hx

theorem foldl_parseLine_entries_good : ∀ (lines : List PyStr)
    (st : Option PyStr × Deps),
    (∀ l ∈ lines, '\n' ∉ l ∧ '\r' ∉ l) →
    (∀ y ∈ entriesOf st.2, GoodEntry y) →
    ∀ x ∈ entriesOf (List.foldl parseLine st lines).2, GoodEntry x := by
  intro lines
  induction lines with
  | nil => intro st _ hst x hx; exact hst x hx
  | cons l ls ih =>
    intro st hl hst x hx
    rw [List.foldl_cons] at hx
    exact ih (parseLine st l) (fun m hm => hl m (List.mem_cons_of_mem l hm))
      (fun y hy => parseLine_entries_good (hl l (List.mem_cons_self l ls)).1
        (hl l (List.mem_cons_self l ls)).2 hst hy)
      x hx

/-- Every entry produced by the parser is non-empty, newline-free and
strip-invariant, whatever the file content. -/
theorem parse_entries_good (file : Option PyStr) :
    ∀ x ∈ entriesOf (parse_override_file file), GoodEntry x := by
  cases file with
  | none =>
    intro x hx
    simp [parse_override_file, entriesOf, emptyDeps] at hx
  | some content =>
    intro x hx
    exact foldl_parseLine_entries_good (splitLines content) (none, emptyDeps)
      (fun l hl => mem_splitLines_no_break hl)
      (by intro y hy; simp [entriesOf, emptyDeps] at hy) x hx

/-! ## The write/parse round trip -/

theorem parseLine_header (sec : Option PyStr) (d : Deps) :
    parseLine (sec, d) ("[Unit]").toList = (some unitSection, d) := rfl

theorem parseLine_empty (sec : Option PyStr) (d : Deps) :
    parseLine (sec, d) [] = (sec, d) := rfl

theorem parseLine_directive_core (c0 : Char) (ks : PyStr)
    (hc0 : pyIsSpace c0 = false) (hc0h : c0 ≠ '#') (hc0b : c0 ≠ '[')
    (hkeq : '=' ∉ (c0 :: ks)) (hkstrip : pyStrip (c0 :: ks) = c0 :: ks)
    {e : PyStr} (he : GoodEntry e) (d : Deps) :
    parseLine (some unitSection, d) (c0 :: (ks ++ '=' :: e)) =
      (some unitSection, addIfKey d (c0 :: ks) e) := by
  obtain ⟨hne, hnl, hcr, hstrip⟩ := he
  have hlast : (c0 :: (ks ++ '=' :: e)).getLast? = e.getLast? := by
    rw [show c0 :: (ks ++ '=' :: e) = ((c0 :: ks) ++ ['=']) ++ e by simp]
    exact List.getLast?_append_of_ne_nil _ hne
  have hstripL : pyStrip (c0 :: (ks ++ '=' :: e)) = c0 :: (ks ++ '=' :: e) := by
    refine pyStrip_eq_self ?_ ?_
    · intro c hc
      rw [List.head?_cons, Option.some.injEq] at hc
      subst hc
      exact hc0
    · intro c hc
      rw [hlast] at hc
      exact pyStrip_getLast?_not_space (hstrip.symm ▸ hc)
  have hc1 : ¬(c0 :: (ks ++ '=' :: e) = [] ∨
      (['#'].isPrefixOf (c0 :: (ks ++ '=' :: e))) = true) := by
    rintro (habs | habs)
    · simp at habs
    · obtain ⟨t, ht⟩ := (isPrefixOf_iff_exists _ _).mp habs
      injection ht with h1 _
      exact hc0h h1
  have hc2 : ¬((['['].isPrefixOf (c0 :: (ks ++ '=' :: e))) = true ∧
      ([']'].isSuffixOf (c0 :: (ks ++ '=' :: e))) = true) := by
    rintro ⟨habs, _⟩
    obtain ⟨t, ht⟩ := (isPrefixOf_iff_exists _ _).mp habs
    injection ht with h1 _
    exact hc0b h1
  have hsplit : splitFirstEq (c0 :: (ks ++ '=' :: e)) = some (c0 :: ks, e) := by
    rw [← List.cons_append]
    exact splitFirstEq_append hkeq
  unfold parseLine
  simp only [hstripL, hsplit, if_neg hc1, if_neg hc2,
    if_neg (by simp : ¬(some unitSection ≠ some unitSection))]
  rw [hkstrip, hstrip, if_pos (by simpa using hne)]

theorem parseLine_directive (kstr : PyStr)
    (hk : kstr = keyRequires ∨ kstr = keyWants ∨ kstr = keyAfter)
    {e : PyStr} (he : GoodEntry e) (d : Deps) :
    parseLine (some unitSection, d) (kstr ++ '=' :: e) =
      (some unitSection, addIfKey d kstr e) := by
  rcases hk with rfl | rfl | rfl
  · exact parseLine_directive_core 'R' ("equires").toList (by decide) (by decide)
      (by decide) (by decide) (by decide) he d
  · exact parseLine_directive_core 'W' ("ants").toList (by decide) (by decide)
      (by decide) (by decide) (by decide) he d
  · exact parseLine_directive_core 'A' ("fter").toList (by decide) (by decide)
      (by decide) (by decide) (by decide) he d

theorem foldl_parseLine_group (kstr : PyStr)
    (hk : kstr = keyRequires ∨ kstr = keyWants ∨ kstr = keyAfter) :
    ∀ (es : List PyStr), (∀ e ∈ es, GoodEntry e) → ∀ (d : Deps),
    List.foldl parseLine (some unitSection, d)
        (es.map (fun s => kstr ++ '=' :: s)) =
      (some unitSection, List.foldl (fun dd e => addIfKey dd kstr e) d es) := by
  intro es
  induction es with
  | nil => intro _ d; rfl
  | cons e es ih =>
    intro hes d
    rw [List.map_cons, List.foldl_cons,
      parseLine_directive kstr hk (hes e (List.mem_cons_self e es)) d,
      List.foldl_cons]
    exact ih (fun x hx => hes x (List.mem_cons_of_mem e hx)) _

theorem foldl_addIfKey_requires (es : List PyStr) : ∀ (d : Deps),
    List.foldl (fun dd e => addIfKey dd keyRequires e) d es =
      { d with requires := d.requires ++ es } := by
  induction es with
  | nil => intro d; simp
  | cons e es ih =>
    intro d
    rw [List.foldl_cons,
      show addIfKey d keyRequires e = { d with requires := d.requires ++ [e] } from
        by unfold addIfKey; rw [if_pos rfl],
      ih]
    simp

theorem foldl_addIfKey_wants (es : List PyStr) : ∀ (d : Deps),
    List.foldl (fun dd e => addIfKey dd keyWants e) d es =
      { d with wants := d.wants ++ es } := by
  induction es with
  | nil => intro d; simp
  | cons e es ih =>
    intro d
    rw [List.foldl_cons,
      show addIfKey d keyWants e = { d with wants := d.wants ++ [e] } from
        by unfold addIfKey; rw [if_neg (by decide), if_pos rfl],
      ih]
    simp

theorem foldl_addIfKey_after (es : List PyStr) : ∀ (d : Deps),
    List.foldl (fun dd e => addIfKey dd keyAfter e) d es =
      { d with after := d.after ++ es } := by
  induction es with
  | nil => intro d; simp
  | cons e es ih =>
    intro d
    rw [List.foldl_cons,
      show addIfKey d keyAfter e = { d with after := d.after ++ [e] } from
        by unfold addIfKey; rw [if_neg (by decide), if_neg (by decide), if_pos rfl],
      ih]
    simp

theorem splitLF_joinLines : ∀ (ls : List PyStr), ls ≠ [] →
    (∀ l ∈ ls, '\n' ∉ l) →
    splitLF (joinLines ls ++ ['\n']) = ls ++ [[]] := by
  intro ls
  induction ls with
  | nil => intro h; exact absurd rfl h
  | cons a t ih =>
    intro _ hnl
    cases t with
    | nil =>
      rw [show joinLines [a] = a from rfl,
        show a ++ ['\n'] = a ++ '\n' :: ([] : PyStr) from rfl,
        splitLF_append_newline (hnl a (List.mem_cons_self a []))]
      rfl
    | cons b t2 =>
      rw [show joinLines (a :: b :: t2) = a ++ '\n' :: joinLines (b :: t2) from rfl,
        List.append_assoc, List.cons_append,
        splitLF_append_newline (hnl a (List.mem_cons_self a _)),
        ih (by simp) (fun l hl => hnl l (List.mem_cons_of_mem a hl))]
      rfl

theorem mem_joinLines {x : Char} : ∀ {ls : List PyStr}, x ∈ joinLines ls →
    x = '\n' ∨ ∃ l ∈ ls, x ∈ l := by
  intro ls
  induction ls with
  | nil => intro h; cases h
  | cons a t ih =>
    intro h
    cases t with
    | nil =>
      right
      exact ⟨a, List.mem_cons_self a [], h⟩
    | cons b t2 =>
      rw [show joinLines (a :: b :: t2) = a ++ '\n' :: joinLines (b :: t2)
        from rfl] at h
      rcases List.mem_append.mp h with h2 | h2
      · right; exact ⟨a, List.mem_cons_self a _, h2⟩
      · rcases List.mem_cons.mp h2 with rfl | h3
        · left; rfl
        · rcases ih h3 with h4 | ⟨l, hl, hx⟩
          · left; exact h4
          · right; exact ⟨l, List.mem_cons_of_mem a hl, hx⟩

theorem splitLines_joinLines (ls : List PyStr) (hne : ls ≠ [])
    (hnl : ∀ l ∈ ls, '\n' ∉ l ∧ '\r' ∉ l) :
    splitLines (joinLines ls ++ ['\n']) = ls ++ [[]] := by
  have hnocr : '\r' ∉ joinLines ls ++ ['\n'] := by
    intro h
    rcases List.mem_append.mp h with h2 | h2
    · rcases mem_joinLines h2 with h3 | ⟨l, hl, hx⟩
      · exact absurd h3 (by decide)
      · exact (hnl l hl).2 hx
    · exact absurd (List.mem_singleton.mp h2) (by decide)
  unfold splitLines
  rw [normNewlines_of_not_cr hnocr]
  exact splitLF_joinLines ls hne (fun l hl => (hnl l hl).1)

/-- Claim C10's core: writing a Descriptor whose entries are non-empty,
newline-free and strip-invariant and parsing the result yields the same
Descriptor, lists element-for-element. -/
theorem parseContent_writeContent (d : Deps)
    (hgood : ∀ x ∈ entriesOf d, GoodEntry x) :
    parseContent (writeContent d) = d := by
  have hgr : ∀ x ∈ d.requires, GoodEntry x := by
    intro x hx; exact hgood x (by simp [entriesOf, hx])
  have hgw : ∀ x ∈ d.wants, GoodEntry x := by
    intro x hx; exact hgood x (by simp [entriesOf, hx])
  have hga : ∀ x ∈ d.after, GoodEntry x := by
    intro x hx; exact hgood x (by simp [entriesOf, hx])
  have hnl : ∀ l ∈ [("[Unit]").toList] ++
      d.requires.map (fun s => keyRequires ++ '=' :: s) ++
      d.wants.map (fun s => keyWants ++ '=' :: s) ++
      d.after.map (fun s => keyAfter ++ '=' :: s), '\n' ∉ l ∧ '\r' ∉ l := by
    intro l hl
    simp only [List.mem_append, List.mem_map, List.mem_singleton] at hl
    rcases hl with ((rfl | ⟨e, he, rfl⟩) | ⟨e, he, rfl⟩) | ⟨e, he, rfl⟩
    · exact ⟨by decide, by decide⟩
    · constructor
      · intro hc
        simp only [List.mem_append, List.mem_cons] at hc
        rcases hc with h | h | h
        · revert h; decide
        · exact absurd h (by decide)
        · exact (hgr e he).2.1 h
      · intro hc
        simp only [List.mem_append, List.mem_cons] at hc
        rcases hc with h | h | h
        · revert h; decide
        · exact absurd h (by decide)
        · exact (hgr e he).2.2.1 h
    · constructor
      · intro hc
        simp only [List.mem_append, List.mem_cons] at hc
        rcases hc with h | h | h
        · revert h; decide
        · exact absurd h (by decide)
        · exact (hgw e he).2.1 h
      · intro hc
        simp only [List.mem_append, List.mem_cons] at hc
        rcases hc with h | h | h
        · revert h; decide
        · exact absurd h (by decide)
        · exact (hgw e he).2.2.1 h
    · constructor
      · intro hc
        simp only [List.mem_append, List.mem_cons] at hc
        rcases hc with h | h | h
        · revert h; decide
        · exact absurd h (by decide)
        · exact (hga e he).2.1 h
      · intro hc
        simp only [List.mem_append, List.mem_cons] at hc
        rcases hc with h | h | h
        · revert h; decide
        · exact absurd h (by decide)
        · exact (hga e he).2.2.1 h
  have hsplit0 : splitLines (writeContent d) =
      ([("[Unit]").toList] ++
        d.requires.map (fun s => keyRequires ++ '=' :: s) ++
        d.wants.map (fun s => keyWants ++ '=' :: s) ++
        d.after.map (fun s => keyAfter ++ '=' :: s)) ++ [[]] := by
    unfold writeContent
    exact splitLines_joinLines _ (by simp) hnl
  have hsplit : splitLines (writeContent d) =
      ("[Unit]").toList ::
        (d.requires.map (fun s => keyRequires ++ '=' :: s) ++
          (d.wants.map (fun s => keyWants ++ '=' :: s) ++
            (d.after.map (fun s => keyAfter ++ '=' :: s) ++ [[]]))) := by
    rw [hsplit0]
    simp [List.append_assoc]
  unfold parseContent
  rw [hsplit, List.foldl_cons, parseLine_header, List.foldl_append,
    foldl_parseLine_group keyRequires (Or.inl rfl) d.requires hgr emptyDeps,
    foldl_addIfKey_requires d.requires emptyDeps, List.foldl_append,
    foldl_parseLine_group keyWants (Or.inr (Or.inl rfl)) d.wants hgw _,
    foldl_addIfKey_wants d.wants _, List.foldl_append,
    foldl_parseLine_group keyAfter (Or.inr (Or.inr rfl)) d.after hga _,
    foldl_addIfKey_after d.after _,
    List.foldl_cons, parseLine_empty, List.foldl_nil]
  cases d
  simp [emptyDeps]

theorem detectCyclesAux_zero (fs : FS) (s : PyStr) (path visited : List PyStr) :
    detectCyclesAux fs 0 s path visited = (none, visited) := rfl

theorem detectCyclesAux_succ (fs : FS) (fuel : Nat) (s : PyStr)
    (path visited : List PyStr) :
    detectCyclesAux fs (fuel + 1) s path visited =
      if s ∈ path then
        (some (some (path.drop (path.indexOf s) ++ [s])), visited)
      else if s ∈ visited then (some none, visited)
      else detectLoop (detectCyclesAux fs fuel)
        ((readDeps fs s).requires ++ (readDeps fs s).wants)
        (path ++ [s]) (visited ++ [s]) := rfl

theorem chain_cons_to_transGen (r : PyStr → PyStr → Prop) :
    ∀ (l : List PyStr) (a b : PyStr),
    List.Chain' r (a :: (l ++ [b])) → Relation.TransGen r a b := by
  intro l
  induction l with
  | nil =>
    intro a b h
    rw [List.nil_append] at h
    exact Relation.TransGen.single (List.chain'_cons.mp h).1
  | cons c t ih =>
    intro a b h
    rw [List.cons_append] at h
    have h2 := List.chain'_cons.mp h
    exact Relation.TransGen.head h2.1 (ih c b h2.2)

theorem detectLoop_some_none (rec : PyStr → List PyStr → List PyStr → DetectRes)
    (path : List PyStr) :
    ∀ (units : List PyStr),
    (∀ u ∈ units, ∀ v, (rec (stripUnit u) path v).1 = some none) →
    ∀ v, (detectLoop rec units path v).1 = some none := by
  intro units
  induction units with
  | nil => intro _ v; rfl
  | cons u us ih =>
    intro h v
    have h1 := h u (List.mem_cons_self u us) v
    rcases hrec : rec (stripUnit u) path v with ⟨r1, v'⟩
    rw [hrec] at h1
    simp only at h1
    subst h1
    show (detectLoop rec (u :: us) path v).1 = some none
    unfold detectLoop
    rw [hrec]
    exact ih (fun x hx w => h x (List.mem_cons_of_mem u hx) w) v'

theorem length_filter_ne_of_mem {s : PyStr} : ∀ {L : List PyStr}, s ∈ L →
    (L.filter (fun x => decide (x ≠ s))).length < L.length := by
  intro L
  induction L with
  | nil => intro h; cases h
  | cons a t ih =>
    intro h
    by_cases ha : a = s
    · subst ha
      rw [List.filter_cons_of_neg (by simp)]
      have := List.length_filter_le (fun x => decide (x ≠ a)) t
      simp only [List.length_cons]
      omega
    · rw [List.filter_cons_of_pos (by simp [ha])]
      rcases List.mem_cons.mp h with rfl | hmem
      · exact absurd rfl ha
      · have := ih hmem
        simp only [List.length_cons]
        omega

theorem filter_path_snoc (dom path : List PyStr) (s : PyStr) :
    dom.filter (fun x => decide (x ∉ path ++ [s])) =
      (dom.filter (fun x => decide (x ∉ path))).filter (fun x => decide (x ≠ s)) := by
  rw [List.filter_filter]
  refine List.filter_congr ?_
  intro x _
  by_cases h1 : x ∈ path <;> by_cases h2 : x = s <;> simp [h1, h2]

theorem detect_acyclic_aux (fs : FS) (dom : List PyStr)
    (hdom : ∀ s, s ∉ dom →
      (readDeps fs s).requires = [] ∧ (readDeps fs s).wants = [])
    (hacyc : ∀ s, ¬ Relation.TransGen (depStep fs) s s) :
    ∀ (fuel : Nat) (path : List PyStr) (s : PyStr) (visited : List PyStr),
      List.Chain' (depStep fs) (path ++ [s]) →
      (dom.filter (fun x => decide (x ∉ path))).length < fuel →
      (detectCyclesAux fs fuel s path visited).1 = some none := by
  intro fuel
  induction fuel with
  | zero => intro path s visited _ hcount; omega
  | succ n ih =>
    intro path s visited hchain hcount
    rw [detectCyclesAux_succ]
    have hsnot : s ∉ path := by
      intro hmem
      obtain ⟨p1, p2, rfl⟩ := List.append_of_mem hmem
      have hch2 : List.Chain' (depStep fs) (s :: (p2 ++ [s])) := by
        have heq : (p1 ++ s :: p2) ++ [s] = p1 ++ (s :: (p2 ++ [s])) := by simp
        rw [heq] at hchain
        exact List.Chain'.right_of_append hchain
      exact hacyc s (chain_cons_to_transGen _ p2 s s hch2)
    rw [if_neg hsnot]
    by_cases hvis : s ∈ visited
    · rw [if_pos hvis]
    · rw [if_neg hvis]
      by_cases hsdom : s ∈ dom
      · refine detectLoop_some_none _ _ _ ?_ _
        intro u hu v
        refine ih (path ++ [s]) (stripUnit u) v ?_ ?_
        · refine List.chain'_append.mpr ⟨hchain, List.chain'_singleton _, ?_⟩
          intro x hx y hy
          rw [List.getLast?_concat] at hx
          simp only [List.head?_cons, Option.mem_def, Option.some.injEq] at hx hy
          subst hx
          subst hy
          exact List.mem_map_of_mem _ hu
        · have hsfilt : s ∈ dom.filter (fun x => decide (x ∉ path)) :=
            List.mem_filter.mpr ⟨hsdom, by simpa using hsnot⟩
          have hlt := length_filter_ne_of_mem hsfilt
          rw [filter_path_snoc]
          omega
      · obtain ⟨h1, h2⟩ := hdom s hsdom
        rw [h1, h2]
        rfl

/-- On a finite acyclic descriptor set the detector reports no cycle from
any start, given a recursion budget beyond the support size. -/
theorem detect_cycles_acyclic (fs : FS) (dom : List PyStr)
    (hdom : ∀ s, s ∉ dom →
      (readDeps fs s).requires = [] ∧ (readDeps fs s).wants = [])
    (hacyc : ∀ s, ¬ Relation.TransGen (depStep fs) s s)
    (fuel : Nat) (hfuel : dom.length < fuel) (s : PyStr) :
    (detect_cycles fs fuel s).1 = some none := by
  unfold detect_cycles
  refine detect_acyclic_aux fs dom hdom hacyc fuel [] s [] ?_ ?_
  · simp
  · simpa using hfuel

theorem add_dependency_cases (te : Bool) (file : Option PyStr) (s dep k : PyStr) :
    (((add_dependency te file s dep k).1 = .err ∨
      (add_dependency te file s dep k).1 = .warnNoop) ∧
     (add_dependency te file s dep k).2 = file) ∨
    ((add_dependency te file s dep k).1 = .ok ∧
     ¬(pyStrip s = [] ∨ pyStrip dep = []) ∧
     ¬(pyStrip s = pyStrip dep) ∧
     (k = ("requires").toList ∨ k = ("wants").toList) ∧
     te = true ∧
     get_compose_service_name (pyStrip dep) ∉
       getDir (parse_override_file file) (pyCapitalize k) ∧
     (add_dependency te file s dep k).2 =
       some (writeContent (addedDeps (parse_override_file file) (pyCapitalize k)
         (get_compose_service_name (pyStrip dep))))) := by
  simp only [add_dependency]
  split_ifs with h1 h2 h3 h4 h5 <;>
    first
      | (left; exact ⟨Or.inl rfl, rfl⟩)
      | (left; exact ⟨Or.inr rfl, rfl⟩)
      | (right
         refine ⟨rfl, h1, h2, ?_, h4, h5, rfl⟩
         simpa [validTypes] using h3)

theorem remove_dependency_cases (file : Option PyStr) (s dep : PyStr) :
    (remove_dependency file s dep).2 = file ∨
    ((remove_dependency file s dep).2 = none) ∨
    (∃ content, file = some content ∧
      (remove_dependency file s dep).2 =
        some (writeContent (removedDeps (parseContent content)
          (get_compose_service_name (pyStrip dep))))) := by
  unfold remove_dependency
  cases file with
  | none => right; left; rfl
  | some content =>
    simp only
    split_ifs with h1 h2
    · left; rfl
    · right; right; exact ⟨content, rfl, rfl⟩
    · right; left; rfl

theorem nodup_append_singleton {l : List PyStr} {a : PyStr}
    (h : l.Nodup) (ha : a ∉ l) : (l ++ [a]).Nodup := by
  have := (@List.nodup_middle PyStr a l []).mpr
  rw [List.append_nil] at this
  exact this (List.nodup_cons.mpr ⟨ha, h⟩)

theorem getDir_requires (d : Deps) : getDir d keyRequires = d.requires := by
  unfold getDir
  rw [if_pos rfl]

theorem getDir_wants (d : Deps) : getDir d keyWants = d.wants := by
  unfold getDir
  rw [if_neg (by decide), if_pos rfl]

theorem getDir_after (d : Deps) : getDir d keyAfter = d.after := by
  unfold getDir
  rw [if_neg (by decide), if_neg (by decide), if_pos rfl]

theorem addedDeps_requires_eval (d : Deps) (du : PyStr) :
    addedDeps d keyRequires du =
      if du ∈ d.after then ⟨d.requires ++ [du], d.wants, d.after⟩
      else ⟨d.requires ++ [du], d.wants, d.after ++ [du]⟩ := by
  unfold addedDeps setDir
  rw [getDir_requires, if_pos rfl]

theorem addedDeps_wants_eval (d : Deps) (du : PyStr) :
    addedDeps d keyWants du =
      if du ∈ d.after then ⟨d.requires, d.wants ++ [du], d.after⟩
      else ⟨d.requires, d.wants ++ [du], d.after ++ [du]⟩ := by
  unfold addedDeps setDir
  rw [getDir_wants, if_neg (show ¬(keyWants = keyRequires) by decide), if_pos rfl]

theorem addedDeps_entries {d : Deps} {kdir du x : PyStr}
    (hk : kdir = keyRequires ∨ kdir = keyWants)
    (h : x ∈ entriesOf (addedDeps d kdir du)) : x ∈ entriesOf d ∨ x = du := by
  rcases hk with rfl | rfl
  · rw [addedDeps_requires_eval] at h
    split_ifs at h <;>
      simp only [entriesOf, List.mem_append, List.mem_singleton] at h ⊢ <;> tauto
  · rw [addedDeps_wants_eval] at h
    split_ifs at h <;>
      simp only [entriesOf, List.mem_append, List.mem_singleton] at h ⊢ <;> tauto

theorem addedDeps_inv {d : Deps} (hinv : DepsInv d) {kdir du : PyStr}
    (hk : kdir = keyRequires ∨ kdir = keyWants)
    (hnot : du ∉ getDir d kdir) : DepsInv (addedDeps d kdir du) := by
  obtain ⟨h1, h2, h3, h4, h5⟩ := hinv
  rcases hk with rfl | rfl
  · rw [getDir_requires] at hnot
    rw [addedDeps_requires_eval]
    split_ifs with hafter
    · refine ⟨nodup_append_singleton h1 hnot, h2, h3, ?_, h5⟩
      intro x hx
      rcases List.mem_append.mp hx with hx2 | hx2
      · exact h4 x hx2
      · rw [List.mem_singleton.mp hx2]; exact hafter
    · refine ⟨nodup_append_singleton h1 hnot, h2,
        nodup_append_singleton h3 hafter, ?_, ?_⟩
      · intro x hx
        rcases List.mem_append.mp hx with hx2 | hx2
        · exact List.mem_append.mpr (Or.inl (h4 x hx2))
        · exact List.mem_append.mpr (Or.inr hx2)
      · intro x hx
        exact List.mem_append.mpr (Or.inl (h5 x hx))
  · rw [getDir_wants] at hnot
    rw [addedDeps_wants_eval]
    split_ifs with hafter
    · refine ⟨h1, nodup_append_singleton h2 hnot, h3, h4, ?_⟩
      intro x hx
      rcases List.mem_append.mp hx with hx2 | hx2
      · exact h5 x hx2
      · rw [List.mem_singleton.mp hx2]; exact hafter
    · refine ⟨h1, nodup_append_singleton h2 hnot,
        nodup_append_singleton h3 hafter, ?_, ?_⟩
      · intro x hx
        exact List.mem_append.mpr (Or.inl (h4 x hx))
      · intro x hx
        rcases List.mem_append.mp hx with hx2 | hx2
        · exact List.mem_append.mpr (Or.inl (h5 x hx2))
        · exact List.mem_append.mpr (Or.inr hx2)

theorem removedDeps_entries {d : Deps} {du x : PyStr}
    (h : x ∈ entriesOf (removedDeps d du)) : x ∈ entriesOf d := by
  unfold removedDeps at h
  simp only [entriesOf, List.mem_append] at h ⊢
  rcases h with (h | h) | h
  · exact Or.inl (Or.inl (List.mem_of_mem_erase h))
  · exact Or.inl (Or.inr (List.mem_of_mem_erase h))
  · exact Or.inr (List.mem_of_mem_erase h)

theorem removedDeps_inv {d : Deps} (hinv : DepsInv d) (du : PyStr) :
    DepsInv (removedDeps d du) := by
  obtain ⟨h1, h2, h3, h4, h5⟩ := hinv
  refine ⟨h1.erase du, h2.erase du, h3.erase du, ?_, ?_⟩
  · intro x hx
    obtain ⟨hne, hmem⟩ := (h1.mem_erase_iff).mp hx
    exact (List.mem_erase_of_ne hne).mpr (h4 x hmem)
  · intro x hx
    obtain ⟨hne, hmem⟩ := (h2.mem_erase_iff).mp hx
    exact (List.mem_erase_of_ne hne).mpr (h5 x hmem)

theorem emptyDeps_inv : DepsInv emptyDeps :=
  ⟨List.nodup_nil, List.nodup_nil, List.nodup_nil,
    fun x hx => absurd hx (List.not_mem_nil x),
    fun x hx => absurd hx (List.not_mem_nil x)⟩

theorem reachA_invariant : ∀ {file : Option PyStr}, ReachA file →
    DepsInv (parse_override_file file) := by
  intro file h
  induction h with
  | init => exact emptyDeps_inv
  | addStep te file s dep k hdep hr ih =>
    rcases add_dependency_cases te file s dep k with ⟨_, heq⟩ |
      ⟨_, _, _, hk, _, hnotin, heq⟩
    · rw [heq]; exact ih
    · rw [heq]
      have hkdir : pyCapitalize k = keyRequires ∨ pyCapitalize k = keyWants := by
        rcases hk with rfl | rfl
        · left; decide
        · right; decide
      have hGE : GoodEntry (get_compose_service_name (pyStrip dep)) :=
        gcsn_goodEntry _ hdep.1 hdep.2
      have hgoodall : ∀ x ∈ entriesOf (addedDeps (parse_override_file file)
          (pyCapitalize k) (get_compose_service_name (pyStrip dep))),
          GoodEntry x := by
        intro x hx
        rcases addedDeps_entries hkdir hx with hold | rfl
        · exact parse_entries_good file x hold
        · exact hGE
      show DepsInv (parseContent (writeContent _))
      rw [parseContent_writeContent _ hgoodall]
      exact addedDeps_inv ih hkdir hnotin
  | removeStep file s dep hr ih =>
    rcases remove_dependency_cases file s dep with heq | heq |
      ⟨content, rfl, heq⟩
    · rw [heq]; exact ih
    · rw [heq]; exact emptyDeps_inv
    · rw [heq]
      have hgoodall : ∀ x ∈ entriesOf (removedDeps (parseContent content)
          (get_compose_service_name (pyStrip dep))), GoodEntry x := by
        intro x hx
        exact parse_entries_good (some content) x (removedDeps_entries hx)
      show DepsInv (parseContent (writeContent _))
      rw [parseContent_writeContent _ hgoodall]
      exact removedDeps_inv ih _

/-! ## Branch lemmas for the mutating operations -/

theorem remove_dependency_warnNoop (content : PyStr) (s dep : PyStr)
    (hnot : get_compose_service_name (pyStrip dep) ∉ (parseContent content).requires ∧
            get_compose_service_name (pyStrip dep) ∉ (parseContent content).wants ∧
            get_compose_service_name (pyStrip dep) ∉ (parseContent content).after) :
    remove_dependency (some content) s dep = (.warnNoop, some content) := by
  unfold remove_dependency
  simp only
  rw [if_pos hnot]

theorem remove_dependency_found (content : PyStr) (s dep : PyStr)
    (hfound : ¬(get_compose_service_name (pyStrip dep) ∉ (parseContent content).requires ∧
               get_compose_service_name (pyStrip dep) ∉ (parseContent content).wants ∧
               get_compose_service_name (pyStrip dep) ∉ (parseContent content).after)) :
    remove_dependency (some content) s dep =
      if (removedDeps (parseContent content)
            (get_compose_service_name (pyStrip dep))).requires ≠ [] ∨
         (removedDeps (parseContent content)
            (get_compose_service_name (pyStrip dep))).wants ≠ []
      then (.ok, some (writeContent (removedDeps (parseContent content)
        (get_compose_service_name (pyStrip dep)))))
      else (.ok, none) := by
  unfold remove_dependency
  simp only
  rw [if_neg hfound]

theorem add_dependency_warnNoop (te : Bool) (file : Option PyStr) (s dep k : PyStr)
    (h1 : ¬(pyStrip s = [] ∨ pyStrip dep = []))
    (h2 : ¬(pyStrip s = pyStrip dep))
    (h3 : k ∈ validTypes) (h4 : te = true)
    (h5 : get_compose_service_name (pyStrip dep) ∈
      getDir (parse_override_file file) (pyCapitalize k)) :
    add_dependency te file s dep k = (.warnNoop, file) := by
  simp only [add_dependency]
  rw [if_neg h1, if_neg h2, if_neg (not_not_intro h3), if_neg (not_not_intro h4),
    if_pos h5]

/-! ## The claims -/

/-- C7 (amended: the argument validation — empty names, self-dependency,
invalid kind — applies to `add_dependency`, which fails before touching
the file; `remove_dependency`, by contrast, performs no such validation,
see the counterexample): an invalid `add_dependency` errors out with the
file state untouched. -/
theorem claim_C7 (templateOk : Bool) (file : Option PyStr)
    (service dependency dep_type : PyStr)
    (hbad : pyStrip service = [] ∨ pyStrip dependency = [] ∨
            pyStrip service = pyStrip dependency ∨ dep_type ∉ validTypes) :
    add_dependency templateOk file service dependency dep_type = (.err, file) := by
  simp only [add_dependency]
  split_ifs with h1 h2 h3 h4 h5 <;>
    first
      | rfl
      | (exfalso; rcases hbad with h | h | h | h <;> tauto)

/-- Witness for C7: the self-dependency `addEdge(a, a, wants)` fails with
an error and no write. -/
theorem claim_C7_witness :
    add_dependency true none ("a").toList ("a").toList ("wants").toList =
      (.err, none) :=
  claim_C7 true none ("a").toList ("a").toList ("wants").toList (by decide)

/-- Counterexample to C7's half about `remove_dependency`: removing the
empty-named dependency from a service whose file lists it succeeds (and
even deletes the file) instead of failing with `InvalidArgument` before
any I/O. -/
theorem claim_C7_counterexample :
    (remove_dependency (some (writeContent ⟨[], [get_compose_service_name []],
        [get_compose_service_name []]⟩)) ("a").toList []).1 = .ok ∧
    (remove_dependency (some (writeContent ⟨[], [get_compose_service_name []],
        [get_compose_service_name []]⟩)) ("a").toList []).2 = none := by
  constructor
  · decide
  · decide

/-- C8: `remove_dependency` fails hard when the service has no Descriptor
file, and only warns (leaving the file untouched) when the file exists but
the dependency's unit name occurs in none of the three directive lists. -/
theorem claim_C8 (service dependency content : PyStr) :
    remove_dependency none service dependency = (.err, none) ∧
    ((get_compose_service_name (pyStrip dependency) ∉
        (parseContent content).requires ∧
      get_compose_service_name (pyStrip dependency) ∉
        (parseContent content).wants ∧
      get_compose_service_name (pyStrip dependency) ∉
        (parseContent content).after) →
      remove_dependency (some content) service dependency =
        (.warnNoop, some content)) := by
  constructor
  · rfl
  · intro hnot
    exact remove_dependency_warnNoop content service dependency hnot

/-- Witness for C8 at a concrete file with no matching entry. -/
theorem claim_C8_witness :
    remove_dependency (some (writeContent ⟨[], [], []⟩)) ("a").toList
        ("b").toList = (.warnNoop, some (writeContent ⟨[], [], []⟩)) :=
  (claim_C8 ("a").toList ("b").toList (writeContent ⟨[], [], []⟩)).2 (by decide)

/-- C4: when the target was present, removal succeeds; the Descriptor file
is deleted precisely when no `Requires` and no `Wants` entries remain
(stray `After` entries are discarded with it), and otherwise rewritten
with the remaining entries. -/
theorem claim_C4 (service dependency content : PyStr)
    (hfound : ¬(get_compose_service_name (pyStrip dependency) ∉
        (parseContent content).requires ∧
      get_compose_service_name (pyStrip dependency) ∉
        (parseContent content).wants ∧
      get_compose_service_name (pyStrip dependency) ∉
        (parseContent content).after)) :
    (remove_dependency (some content) service dependency).1 = .ok ∧
    ((remove_dependency (some content) service dependency).2 = none ↔
      ((removedDeps (parseContent content)
          (get_compose_service_name (pyStrip dependency))).requires = [] ∧
       (removedDeps (parseContent content)
          (get_compose_service_name (pyStrip dependency))).wants = [])) ∧
    (((removedDeps (parseContent content)
          (get_compose_service_name (pyStrip dependency))).requires ≠ [] ∨
      (removedDeps (parseContent content)
          (get_compose_service_name (pyStrip dependency))).wants ≠ []) →
      (remove_dependency (some content) service dependency).2 =
        some (writeContent (removedDeps (parseContent content)
          (get_compose_service_name (pyStrip dependency))))) := by
  rw [remove_dependency_found content service dependency hfound]
  split_ifs with h2
  · refine ⟨rfl, ?_, fun _ => rfl⟩
    constructor
    · intro hsome; exact hsome.elim
    · rintro ⟨ha, hb⟩
      rcases h2 with hc | hc
      · exact absurd ha hc
      · exact absurd hb hc
  · push_neg at h2
    refine ⟨rfl, ⟨fun _ => h2, fun _ => rfl⟩, fun hcon => ?_⟩
    rcases hcon with hc | hc
    · exact absurd h2.1 hc
    · exact absurd h2.2 hc

/-- Witness for C4: removing the only `Requires` target deletes the file
even though a stray `After` entry for another target remains. -/
theorem claim_C4_witness :
    (remove_dependency (some (writeContent ⟨[("docker-compose@x.service").toList],
        [], [("docker-compose@x.service").toList,
             ("docker-compose@y.service").toList]⟩))
      ("w").toList ("x").toList).2 = none :=
  (claim_C4 ("w").toList ("x").toList _ (by decide)).2.1.mpr (by decide)

/-- C5 (amended: the dependency's normalized unit name is newline-free —
see the counterexample for why this proviso is needed): `add_dependency`
is idempotent; a second identical call leaves the file state unchanged,
and when the first call wrote, the second only warns. -/
theorem claim_C5 (templateOk : Bool) (file : Option PyStr)
    (service dependency dep_type : PyStr) (hdep : GoodDep dependency) :
    (add_dependency templateOk
        (add_dependency templateOk file service dependency dep_type).2
        service dependency dep_type).2 =
      (add_dependency templateOk file service dependency dep_type).2 ∧
    ((add_dependency templateOk file service dependency dep_type).1 = .ok →
      (add_dependency templateOk
          (add_dependency templateOk file service dependency dep_type).2
          service dependency dep_type).1 = .warnNoop) := by
  rcases add_dependency_cases templateOk file service dependency dep_type with
    ⟨hout, heq⟩ | ⟨hok, h1, h2, hk, h4, hnotin, heq⟩
  · constructor
    · rw [heq]
      exact heq
    · intro hcon
      rcases hout with h | h <;> rw [hcon] at h <;> cases h
  · have hkdir : pyCapitalize dep_type = keyRequires ∨
        pyCapitalize dep_type = keyWants := by
      rcases hk with rfl | rfl
      · left; decide
      · right; decide
    have hGE := gcsn_goodEntry (pyStrip dependency) hdep.1 hdep.2
    have hgoodall : ∀ x ∈ entriesOf (addedDeps (parse_override_file file)
        (pyCapitalize dep_type) (get_compose_service_name (pyStrip dependency))),
        GoodEntry x := by
      intro x hx
      rcases addedDeps_entries hkdir hx with hold | rfl
      · exact parse_entries_good file x hold
      · exact hGE
    have hparse : parse_override_file
        (add_dependency templateOk file service dependency dep_type).2 =
        addedDeps (parse_override_file file) (pyCapitalize dep_type)
          (get_compose_service_name (pyStrip dependency)) := by
      rw [heq]
      show parseContent (writeContent _) = _
      exact parseContent_writeContent _ hgoodall
    have hmem : get_compose_service_name (pyStrip dependency) ∈
        getDir (addedDeps (parse_override_file file) (pyCapitalize dep_type)
          (get_compose_service_name (pyStrip dependency)))
          (pyCapitalize dep_type) := by
      rcases hkdir with hcap | hcap <;> rw [hcap]
      · rw [addedDeps_requires_eval]
        split_ifs <;> rw [getDir_requires] <;> simp
      · rw [addedDeps_wants_eval]
        split_ifs <;> rw [getDir_wants] <;> simp
    have h3 : dep_type ∈ validTypes := by
      rcases hk with rfl | rfl <;> simp [validTypes]
    have h2nd := add_dependency_warnNoop templateOk
      (add_dependency templateOk file service dependency dep_type).2
      service dependency dep_type h1 h2 h3 h4 (by rw [hparse]; exact hmem)
    exact ⟨by rw [h2nd], fun _ => by rw [h2nd]⟩

/-- Witness for C5 at the concrete scenario `addEdge(web, db, requires)`
called twice from no Descriptor. -/
theorem claim_C5_witness :
    (add_dependency true (add_dependency true none ("web").toList ("db").toList
        ("requires").toList).2 ("web").toList ("db").toList
        ("requires").toList).2 =
      (add_dependency true none ("web").toList ("db").toList
        ("requires").toList).2 ∧
    ((add_dependency true none ("web").toList ("db").toList
        ("requires").toList).1 = .ok →
      (add_dependency true (add_dependency true none ("web").toList
          ("db").toList ("requires").toList).2 ("web").toList ("db").toList
          ("requires").toList).1 = .warnNoop) :=
  claim_C5 true none ("web").toList ("db").toList ("requires").toList (by decide)

/-- Counterexample to C5 as stated for arbitrary names: with the newline
smuggled name `"x\nWants=y"`, the second identical call writes again
(outcome `ok`, state changed) instead of warning without mutation. -/
theorem claim_C5_counterexample :
    (add_dependency true (add_dependency true none ("a").toList
        ("x\nWants=y").toList ("wants").toList).2 ("a").toList
        ("x\nWants=y").toList ("wants").toList).1 = .ok ∧
    (add_dependency true (add_dependency true none ("a").toList
        ("x\nWants=y").toList ("wants").toList).2 ("a").toList
        ("x\nWants=y").toList ("wants").toList).2 ≠
      (add_dependency true none ("a").toList ("x\nWants=y").toList
        ("wants").toList).2 := by
  constructor
  · decide
  · decide

/-- C6 (amended: the dependency's normalized unit name is newline-free,
and the prior Descriptor either does not exist or still carries some
`Requires`/`Wants` entry — an After-only Descriptor is not restored, see
the counterexample): `add_dependency(A, B, wants)` followed by
`remove_dependency(A, B)` returns to the prior parsed Descriptor and the
prior file existence, deleting the file when it did not exist before. -/
theorem claim_C6 (templateOk : Bool) (file : Option PyStr)
    (service dependency : PyStr) (hdep : GoodDep dependency)
    (hnot : get_compose_service_name (pyStrip dependency) ∉
        (parse_override_file file).requires ∧
      get_compose_service_name (pyStrip dependency) ∉
        (parse_override_file file).wants ∧
      get_compose_service_name (pyStrip dependency) ∉
        (parse_override_file file).after)
    (hcausal : file = none ∨ (parse_override_file file).requires ≠ [] ∨
      (parse_override_file file).wants ≠ [])
    (final : Option PyStr)
    (hfinal : final = (remove_dependency
      (add_dependency templateOk file service dependency ("wants").toList).2
      service dependency).2) :
    parse_override_file final = parse_override_file file ∧
    (final = none ↔ file = none) := by
  rcases add_dependency_cases templateOk file service dependency
      ("wants").toList with ⟨_, heq⟩ | ⟨_, h1, h2, _, h4, hnotin, heq⟩
  · rw [heq] at hfinal
    cases file with
    | none =>
      rw [show remove_dependency none service dependency = (.err, none) from rfl]
        at hfinal
      subst hfinal
      exact ⟨rfl, by simp⟩
    | some c =>
      rw [remove_dependency_warnNoop c service dependency hnot] at hfinal
      subst hfinal
      exact ⟨rfl, by simp⟩
  · have hcap : pyCapitalize (("wants").toList) = keyWants := by decide
    rw [hcap] at heq
    have hd1 : addedDeps (parse_override_file file) keyWants
        (get_compose_service_name (pyStrip dependency)) =
        ⟨(parse_override_file file).requires,
         (parse_override_file file).wants ++
           [get_compose_service_name (pyStrip dependency)],
         (parse_override_file file).after ++
           [get_compose_service_name (pyStrip dependency)]⟩ := by
      rw [addedDeps_wants_eval, if_neg hnot.2.2]
    have hGE := gcsn_goodEntry (pyStrip dependency) hdep.1 hdep.2
    have hgoodall : ∀ x ∈ entriesOf (addedDeps (parse_override_file file)
        keyWants (get_compose_service_name (pyStrip dependency))),
        GoodEntry x := by
      intro x hx
      rcases addedDeps_entries (Or.inr rfl) hx with hold | rfl
      · exact parse_entries_good file x hold
      · exact hGE
    have hparse : parseContent (writeContent (addedDeps
        (parse_override_file file) keyWants
        (get_compose_service_name (pyStrip dependency)))) =
        addedDeps (parse_override_file file) keyWants
          (get_compose_service_name (pyStrip dependency)) :=
      parseContent_writeContent _ hgoodall
    have hfound : ¬(get_compose_service_name (pyStrip dependency) ∉
        (parseContent (writeContent (addedDeps (parse_override_file file)
          keyWants (get_compose_service_name (pyStrip dependency))))).requires ∧
      get_compose_service_name (pyStrip dependency) ∉
        (parseContent (writeContent (addedDeps (parse_override_file file)
          keyWants (get_compose_service_name (pyStrip dependency))))).wants ∧
      get_compose_service_name (pyStrip dependency) ∉
        (parseContent (writeContent (addedDeps (parse_override_file file)
          keyWants (get_compose_service_name (pyStrip dependency))))).after) := by
      rw [hparse, hd1]
      rintro ⟨_, hw, _⟩
      exact hw (by simp)
    have hrem : removedDeps (addedDeps (parse_override_file file) keyWants
        (get_compose_service_name (pyStrip dependency)))
        (get_compose_service_name (pyStrip dependency)) =
        parse_override_file file := by
      rw [hd1]
      unfold removedDeps
      simp only
      rw [List.erase_of_not_mem hnot.1,
        List.erase_append_right _ hnot.2.1,
        List.erase_append_right _ hnot.2.2]
      simp
    have hrm := remove_dependency_found (writeContent (addedDeps
      (parse_override_file file) keyWants
      (get_compose_service_name (pyStrip dependency)))) service dependency hfound
    rw [hparse, hrem] at hrm
    rw [heq, hrm] at hfinal
    by_cases hfile : file = none
    · subst hfile
      rw [if_neg (by simp [parse_override_file, emptyDeps])] at hfinal
      subst hfinal
      exact ⟨rfl, by simp⟩
    · have hcz : (parse_override_file file).requires ≠ [] ∨
          (parse_override_file file).wants ≠ [] := by
        rcases hcausal with hc | hc | hc
        · exact absurd hc hfile
        · exact Or.inl hc
        · exact Or.inr hc
      rw [if_pos hcz] at hfinal
      subst hfinal
      constructor
      · show parseContent (writeContent _) = _
        exact parseContent_writeContent _ (parse_entries_good file)
      · constructor
        · intro hsome; exact Option.noConfusion hsome
        · intro hn; exact absurd hn hfile

/-- Witness for C6: adding and removing `b` on a Descriptor that holds a
`Requires`/`After` pair for `x` restores the prior parsed state. -/
theorem claim_C6_witness :
    parse_override_file (remove_dependency (add_dependency true
        (some (writeContent ⟨[("docker-compose@x.service").toList], [],
          [("docker-compose@x.service").toList]⟩))
        ("a").toList ("b").toList ("wants").toList).2
        ("a").toList ("b").toList).2 =
      parse_override_file (some (writeContent
        ⟨[("docker-compose@x.service").toList], [],
         [("docker-compose@x.service").toList]⟩)) ∧
    ((remove_dependency (add_dependency true
        (some (writeContent ⟨[("docker-compose@x.service").toList], [],
          [("docker-compose@x.service").toList]⟩))
        ("a").toList ("b").toList ("wants").toList).2
        ("a").toList ("b").toList).2 = none ↔
      (some (writeContent ⟨[("docker-compose@x.service").toList], [],
        [("docker-compose@x.service").toList]⟩) : Option PyStr) = none) :=
  claim_C6 true _ ("a").toList ("b").toList (by decide) (by decide)
    (by decide) _ rfl

/-- Counterexample to C6 as stated: with an After-only Descriptor (target
`other`), `addEdge(a, b, wants)` then `removeEdge(a, b)` deletes the file
— the state before the add (an existing file) is not restored, though
`b`'s unit name occurred in none of the three lists beforehand. -/
theorem claim_C6_counterexample :
    (get_compose_service_name (pyStrip ("b").toList) ∉
        (parse_override_file (some (writeContent ⟨[], [],
          [("docker-compose@other.service").toList]⟩))).requires ∧
      get_compose_service_name (pyStrip ("b").toList) ∉
        (parse_override_file (some (writeContent ⟨[], [],
          [("docker-compose@other.service").toList]⟩))).wants ∧
      get_compose_service_name (pyStrip ("b").toList) ∉
        (parse_override_file (some (writeContent ⟨[], [],
          [("docker-compose@other.service").toList]⟩))).after) ∧
    (remove_dependency (add_dependency true
        (some (writeContent ⟨[], [],
          [("docker-compose@other.service").toList]⟩))
        ("a").toList ("b").toList ("wants").toList).2
        ("a").toList ("b").toList).2 = none ∧
    (some (writeContent ⟨[], [],
      [("docker-compose@other.service").toList]⟩) : Option PyStr) ≠ none := by
  refine ⟨by decide, by decide, by decide⟩

/-- C3 (amended: each added dependency's normalized unit name is
newline-free — see the counterexample): every Descriptor state reachable
from the absent Descriptor through `add_dependency` and
`remove_dependency` parses to duplicate-free directive lists whose
`Requires` and `Wants` entries all appear under `After`. -/
theorem claim_C3 {file : Option PyStr} (h : ReachA file) :
    DepsInv (parse_override_file file) :=
  reachA_invariant h

/-- Witness for C3 at the state reached by one `addEdge(web, db, requires)`. -/
theorem claim_C3_witness :
    DepsInv (parse_override_file (add_dependency true none ("web").toList
      ("db").toList ("requires").toList).2) :=
  claim_C3 (ReachA.addStep true none ("web").toList ("db").toList
    ("requires").toList (by decide) ReachA.init)

/-- Counterexample to C3 as stated for arbitrary names: one successful
`addEdge` whose dependency name embeds a newline produces a Descriptor
parsing to a duplicated `Wants` entry with no `After` counterpart. -/
theorem claim_C3_counterexample :
    (add_dependency true none ("a").toList ("x\nWants=y").toList
      ("wants").toList).1 = .ok ∧
    ¬ DepsInv (parse_override_file (add_dependency true none ("a").toList
      ("x\nWants=y").toList ("wants").toList).2) := by
  constructor
  · decide
  · intro hinv
    have hdup : ¬ (parse_override_file (add_dependency true none ("a").toList
        ("x\nWants=y").toList ("wants").toList).2).wants.Nodup := by decide
    exact hdup hinv.2.1

/-- C9: name normalization is total and idempotent: qualifying an already
qualified name returns it unchanged, so applying
`get_compose_service_name` twice equals applying it once, for every
input string. -/
theorem claim_C9 (x : PyStr) :
    get_compose_service_name (get_compose_service_name x) =
      get_compose_service_name x :=
  gcsn_idem x

/-- C10 (amended: the entries also contain no carriage return — a `'\r'`
inside an entry splits the written line on re-read through Python's
universal newlines, see the counterexample): writing a Descriptor whose
entries are non-empty, free of `'\n'` and `'\r'`, strip-invariant and do
not begin with `#` or `[`, then parsing the file back, returns exactly
the same three lists, order and duplicates included. -/
theorem claim_C10 (d : Deps)
    (h : ∀ e ∈ entriesOf d, e ≠ [] ∧ '\n' ∉ e ∧ '\r' ∉ e ∧ pyStrip e = e ∧
      e.head? ≠ some '#' ∧ e.head? ≠ some '[') :
    parseContent (writeContent d) = d :=
  parseContent_writeContent d
    (fun x hx => ⟨(h x hx).1, (h x hx).2.1, (h x hx).2.2.1, (h x hx).2.2.2.1⟩)

/-- Counterexample to C10 as stated: the entry `"a\rb"` is non-empty,
contains no `'\n'`, is strip-invariant and starts with `'a'`, yet the
written line `Wants=a\rb` is re-split at the carriage return on reading,
so parsing returns `Wants=["a"]` instead of the original entry. -/
theorem claim_C10_counterexample :
    (("a\rb").toList ≠ [] ∧ '\n' ∉ ("a\rb").toList ∧
      pyStrip (("a\rb").toList) = ("a\rb").toList ∧
      (("a\rb").toList).head? ≠ some '#' ∧
      (("a\rb").toList).head? ≠ some '[') ∧
    parseContent (writeContent ⟨[], [("a\rb").toList], []⟩) =
      ⟨[], [("a").toList], []⟩ ∧
    parseContent (writeContent ⟨[], [("a\rb").toList], []⟩) ≠
      ⟨[], [("a\rb").toList], []⟩ := by
  refine ⟨by decide, by decide, by decide⟩

/-- Witness for C10 on a two-entry Descriptor with a duplicate-free
`After` list. -/
theorem claim_C10_witness :
    parseContent (writeContent ⟨[("docker-compose@db.service").toList],
      [("docker-compose@cache.service").toList],
      [("docker-compose@db.service").toList,
       ("docker-compose@cache.service").toList]⟩) =
    ⟨[("docker-compose@db.service").toList],
     [("docker-compose@cache.service").toList],
     [("docker-compose@db.service").toList,
      ("docker-compose@cache.service").toList]⟩ :=
  claim_C10 _ (by decide)

/-- C1: on the hand-built descriptor set a→b (`Requires`), b→c (`Wants`),
c→a (`Requires`), `detect_cycles` started at `a` returns the traversal
path from the first occurrence of the repeated node through the current
node with the start of the cycle re-appended: `[a, b, c, a]`. -/
theorem claim_C1 :
    (detect_cycles (fun k =>
      if k = ("docker-compose@a.service").toList then
        some (writeContent ⟨[("docker-compose@b.service").toList], [],
          [("docker-compose@b.service").toList]⟩)
      else if k = ("docker-compose@b.service").toList then
        some (writeContent ⟨[], [("docker-compose@c.service").toList],
          [("docker-compose@c.service").toList]⟩)
      else if k = ("docker-compose@c.service").toList then
        some (writeContent ⟨[("docker-compose@a.service").toList], [],
          [("docker-compose@a.service").toList]⟩)
      else none) 10 ("a").toList).1 =
    some (some [("a").toList, ("b").toList, ("c").toList, ("a").toList]) := by
  decide

/-- C2: on every descriptor set with finite support whose traversal edge
relation (over the recovered `Requires` and `Wants` targets) is acyclic,
`detect_cycles` reports no cycle from every starting service, for any
recursion budget beyond the support size. -/
theorem claim_C2 (fs : FS) (dom : List PyStr)
    (hdom : ∀ s, s ∉ dom →
      (readDeps fs s).requires = [] ∧ (readDeps fs s).wants = [])
    (hacyc : ∀ s, ¬ Relation.TransGen (depStep fs) s s)
    (fuel : Nat) (hfuel : dom.length < fuel) (s : PyStr) :
    (detect_cycles fs fuel s).1 = some none :=
  detect_cycles_acyclic fs dom hdom hacyc fuel hfuel s

/-- Witness for C2 on the empty descriptor set. -/
theorem claim_C2_witness :
    (detect_cycles (fun _ => none) 1 []).1 = some none :=
  claim_C2 (fun _ => none) [] (fun _ _ => ⟨rfl, rfl⟩)
    (fun s h => by
      obtain ⟨b, hb, _⟩ := Relation.TransGen.head'_iff.mp h
      simp [depStep, readDeps, parse_override_file, emptyDeps] at hb)
    1 (by decide) []
